import Mathlib

/-!
Shallow embedding of the retrieval core of the bettergut repository
(src/RAG_and_crawler/rag/rag_system.py, class HealthRAGSystem), together
with theorems settling the frozen claims about it.

Python strings are modelled as Lean String; Python str.split() (split on
whitespace runs, dropping empties) is modelled by splitWs over the string's
character list; Python floats arising from int/int division and from
relevance scores are modelled as rationals.
-/

set_option maxRecDepth 100000

namespace BetterGut

/-- Model of Python str.split() restricted to a character list: an
accumulator-passing scan that splits on whitespace runs and drops empty
pieces.  The accumulator holds the word currently being read. -/
def splitWsAux : List Char → List Char → List (List Char)
  | acc, [] => if acc = [] then [] else [acc]
  | acc, c :: cs =>
    if c.isWhitespace then
      if acc = [] then splitWsAux [] cs else acc :: splitWsAux [] cs
    else splitWsAux (acc ++ [c]) cs

/-- Python content.split(): whitespace tokenisation of a character list. -/
def splitWs (l : List Char) : List (List Char) := splitWsAux [] l

/-- Model of Python " ".join(words) at the character-list level. -/
def joinWords : List (List Char) → List Char
  | [] => []
  | [w] => w
  | w :: ws => w ++ ' ' :: joinWords ws

/-- Model of Python str.strip(): drop leading and trailing whitespace. -/
def pyStrip (l : List Char) : List Char :=
  ((l.dropWhile Char.isWhitespace).reverse.dropWhile Char.isWhitespace).reverse

/-- The lowercased word set of a text: set(text.lower().split()) in
_calculate_text_similarity, with str.lower() modelled as charwise
lowercasing. -/
def wordSet (t : String) : Finset (List Char) :=
  (splitWs (t.toList.map Char.toLower)).toFinset

/-- HealthRAGSystem._calculate_text_similarity: word-overlap Jaccard
similarity.  Returns 0.0 when either word set is empty, otherwise
intersection size over union size (the trailing union-positivity guard of
the source is kept). -/
def calculate_text_similarity (text1 text2 : String) : ℚ :=
  if (wordSet text1).card = 0 ∨ (wordSet text2).card = 0 then 0
  else if 0 < (wordSet text1 ∪ wordSet text2).card then
    ((wordSet text1 ∩ wordSet text2).card : ℚ) / ((wordSet text1 ∪ wordSet text2).card : ℚ)
  else 0

/-- The metadata fields of a retrieval result that the context formatter
reads (metadata.get of title, author, source); a missing dictionary key is
none, a present key holds its string. -/
structure RMeta where
  title : Option String
  author : Option String
  source : Option String
deriving DecidableEq

/-- One formatted search result of HealthRAGSystem.search: content,
metadata, raw distance and the derived relevance score. -/
structure SearchResult where
  content : String
  metadata : RMeta
  distance : ℚ
  relevance_score : ℚ
deriving DecidableEq

/-- Inner loop of HealthRAGSystem._select_diverse_results: iterate the
remaining candidates in order; a candidate is diverse when no
already-selected result has similarity strictly above the threshold; it is
appended when additionally its relevance score exceeds 0.5; the loop stops
as soon as five results are selected. -/
def selectLoop (th : ℚ) : List SearchResult → List SearchResult → List SearchResult
  | [], selected => selected
  | c :: cs, selected =>
    let isDiverse : Bool :=
      selected.all (fun s => !(decide (th < calculate_text_similarity c.content s.content)))
    let selected' :=
      if isDiverse && decide ((1 : ℚ)/2 < c.relevance_score) then selected ++ [c] else selected
    if 5 ≤ selected'.length then selected' else selectLoop th cs selected'

/-- HealthRAGSystem._select_diverse_results: empty input gives empty
output; otherwise the first (most relevant) result is kept unconditionally
and the rest are filtered by the greedy diversity loop. -/
def select_diverse_results (results : List SearchResult) (diversity_threshold : ℚ) :
    List SearchResult :=
  match results with
  | [] => []
  | r :: rest => selectLoop diversity_threshold rest [r]

/-- Claim-worded selection (C1, as stated): a candidate is admitted iff its
similarity to every already-selected result is strictly BELOW the
threshold and its relevance exceeds 0.5; stop at five. -/
def selectLoopClaimStrict (th : ℚ) : List SearchResult → List SearchResult → List SearchResult
  | [], selected => selected
  | c :: cs, selected =>
    let selected' :=
      if (∀ s ∈ selected, calculate_text_similarity c.content s.content < th) ∧
          (1 : ℚ)/2 < c.relevance_score then
        selected ++ [c]
      else selected
    if 5 ≤ selected'.length then selected' else selectLoopClaimStrict th cs selected'

/-- Claim-worded selection (C1, as stated), top level. -/
def select_diverse_claim_strict (results : List SearchResult) (th : ℚ) : List SearchResult :=
  match results with
  | [] => []
  | r :: rest => selectLoopClaimStrict th rest [r]

/-- Amended claim-worded selection: a candidate is admitted iff its
similarity to every already-selected result is at most the threshold and
its relevance exceeds 0.5; stop at five. -/
def selectLoopClaimLe (th : ℚ) : List SearchResult → List SearchResult → List SearchResult
  | [], selected => selected
  | c :: cs, selected =>
    let selected' :=
      if (∀ s ∈ selected, calculate_text_similarity c.content s.content ≤ th) ∧
          (1 : ℚ)/2 < c.relevance_score then
        selected ++ [c]
      else selected
    if 5 ≤ selected'.length then selected' else selectLoopClaimLe th cs selected'

/-- Amended claim-worded selection, top level. -/
def select_diverse_claim_le (results : List SearchResult) (th : ℚ) : List SearchResult :=
  match results with
  | [] => []
  | r :: rest => selectLoopClaimLe th rest [r]

/-- A document as consumed by add_documents and _chunk_document: the field
values are those the Python dict lookups with defaults produce (a missing
key reads as the default, the empty string except content_type). -/
structure Document where
  content : String
  source : String
  title : String
  url : String
  author : String
  publication_date : String
  categories : List String
  content_type : String
deriving DecidableEq

/-- The metadata dictionary attached to every chunk by _chunk_document. -/
structure ChunkMeta where
  source : String
  title : String
  url : String
  author : String
  publication_date : String
  categories : List String
  chunk_index : Nat
  total_chunks : Nat
  content_type : String
deriving DecidableEq

/-- A document chunk: its text plus the metadata dictionary. -/
structure Chunk where
  text : String
  metadata : ChunkMeta
deriving DecidableEq

/-- Build the chunk dictionary exactly as _chunk_document does. -/
def mkChunk (d : Document) (text : List Char) (idx total : Nat) : Chunk :=
  { text := String.mk text
    metadata :=
      { source := d.source
        title := d.title
        url := d.url
        author := d.author
        publication_date := d.publication_date
        categories := d.categories
        chunk_index := idx
        total_chunks := total
        content_type := d.content_type } }

/-- Python range(0, n, step) for step at least 1: the multiples of step
below n; there are ceil(n / step) of them. -/
def chunkStarts (n step : Nat) : List Nat :=
  (List.range ((n + step - 1) / step)).map (fun j => j * step)

/-- The window text at a start position: join of words[i : i + cs]. -/
def windowText (words : List (List Char)) (cs i : Nat) : List Char :=
  joinWords ((words.drop i).take cs)

/-- The chunk-building loop of _chunk_document: walk the window start
positions, skip windows whose stripped joined text is shorter than 100
characters, and append kept windows with chunk_index equal to the number
of chunks collected so far and a placeholder total of 0. -/
def chunkBuild (d : Document) (words : List (List Char)) (cs : Nat) :
    List Nat → List Chunk → List Chunk
  | [], acc => acc
  | i :: rest, acc =>
    let ctext := windowText words cs i
    if (pyStrip ctext).length < 100 then chunkBuild d words cs rest acc
    else chunkBuild d words cs rest (acc ++ [mkChunk d ctext acc.length 0])

/-- HealthRAGSystem._chunk_document: empty content gives no chunks;
otherwise split the content on whitespace, walk windows of chunk_size
words at stride chunk_size - overlap, drop sub-100-character windows, and
finally backfill total_chunks on every produced chunk. -/
def chunk_document (d : Document) (chunk_size overlap : Nat) : List Chunk :=
  if d.content = "" then []
  else
    let words := splitWs d.content.toList
    let chunks := chunkBuild d words chunk_size
      (chunkStarts words.length (chunk_size - overlap)) []
    chunks.map (fun c => { c with metadata := { c.metadata with total_chunks := chunks.length } })

/-- Declarative window texts (spec-worded, for C6): the window texts at
the successive stride multiples, keeping exactly those whose stripped
joined text reaches 100 characters. -/
def chunkTexts (words : List (List Char)) (cs step : Nat) : List (List Char) :=
  ((chunkStarts words.length step).map (windowText words cs)).filter
    (fun t => 100 ≤ (pyStrip t).length)

/-- Declarative chunk list (spec-worded, for C6): the kept window texts,
numbered consecutively from 0, every chunk carrying the total count. -/
def chunksSpec (d : Document) (cs ov : Nat) : List Chunk :=
  let texts := chunkTexts (splitWs d.content.toList) cs (cs - ov)
  (List.enumFrom 0 texts).map (fun p => mkChunk d p.2 p.1 texts.length)

/-- All chunks produced by add_documents for a document list (chunking
uses the call-site defaults chunk_size 1000, overlap 200). -/
def processedChunks (docs : List Document) : List Chunk :=
  docs.flatMap (fun d => chunk_document d 1000 200)

/-- Slicing of processed chunks into batches, Python
processed_docs[i : i + batch_size] for i in range(0, len, batch_size). -/
def listBatches (l : List Chunk) (batch_size : Nat) : List (List Chunk) :=
  (chunkStarts l.length batch_size).map (fun i => (l.drop i).take batch_size)

/-- The ids _add_batch_to_collection generates for one batch written at
integer second t: doc_{t}_{i} for i in range(len(batch)). -/
def batchIds (t n : Nat) : List String :=
  (List.range n).map (fun i => "doc_" ++ toString t ++ "_" ++ toString i)

/-- All ids generated by add_documents for a document list, given the
wall-clock second at which each successive batch is written. -/
def addDocumentsIds (docs : List Document) (batch_size : Nat) (timeAt : Nat → Nat) :
    List String :=
  (List.enumFrom 0 (listBatches (processedChunks docs) batch_size)).flatMap
    (fun p => batchIds (timeAt p.1) p.2.length)

/-- The sentinel string get_context_for_query returns when nothing fits. -/
def sentinel : String := "No relevant information found in the knowledge base."

/-- The fixed header prepended to an assembled context. -/
def contextHeader : String := "Relevant scientific and expert information:\n\n"

/-- Python truthiness of metadata.get(key): false for a missing key and for
the empty string. -/
def truthy : Option String → Bool
  | none => false
  | some s => !s.isEmpty

/-- The citation line built for one result by get_context_for_query. -/
def sourceInfo (m : RMeta) : String :=
  let s1 := "Source: " ++ m.title.getD "Unknown" ++ " "
  let s2 := if truthy m.author then s1 ++ "by " ++ m.author.getD "" ++ " " else s1
  if truthy m.source then s2 ++ "(" ++ m.source.getD "" ++ ")" else s2

/-- The formatted citation block for one result. -/
def formatBlock (r : SearchResult) : String :=
  sourceInfo r.metadata ++ "\n" ++ r.content ++ "\n---\n"

/-- The accumulation loop of get_context_for_query: keep appending blocks
while the running character total stays within the budget, and break at
the first block whose addition would exceed it. -/
def takeBudget (n : Nat) : List String → Nat → List String
  | [], _ => []
  | b :: bs, cur =>
    if n < cur + b.length then [] else b :: takeBudget n bs (cur + b.length)

/-- Model of Python newline.join over the accumulated parts. -/
def joinNl : List String → String
  | [] => ""
  | [p] => p
  | p :: ps => p ++ "\n" ++ joinNl ps

/-- The context-formatting tail of get_context_for_query, applied to the
already selected results: accumulate blocks within the budget; if none
fit, return the sentinel, otherwise the header plus the joined parts. -/
def assembleContext (selected : List SearchResult) (max_context_length : Nat) : String :=
  let parts := takeBudget max_context_length (selected.map formatBlock) 0
  if parts = [] then sentinel
  else contextHeader ++ joinNl parts

/-- HealthRAGSystem.get_context_for_query from the search results onward:
empty results give the sentinel; otherwise diversity selection followed by
budgeted context assembly. -/
def get_context_for_query (results : List SearchResult) (max_context_length : Nat)
    (diversity_threshold : ℚ) : String :=
  if results = [] then sentinel
  else assembleContext (select_diverse_results results diversity_threshold) max_context_length

/-- Formatting of raw index rows by HealthRAGSystem.search: each row
(document text, metadata, distance) becomes a result whose relevance score
is 1 - distance. -/
def formatResults (rows : List (String × RMeta × ℚ)) : List SearchResult :=
  rows.map (fun row =>
    { content := row.1
      metadata := row.2.1
      distance := row.2.2
      relevance_score := 1 - row.2.2 })

/-- HealthRAGSystem.search with its two fallible collaborators made
explicit: the embedding call and the index query each either return a
value or raise.  The Python body wraps everything in try/except and
returns the empty list on any exception. -/
def search (emb : Except String (List ℚ))
    (queryIndex : List ℚ → Except String (List (String × RMeta × ℚ))) :
    List SearchResult :=
  match emb with
  | Except.error _ => []
  | Except.ok v =>
    match queryIndex v with
    | Except.error _ => []
    | Except.ok rows => formatResults rows

/-- Similarity evaluates to 0 when either word set is empty. -/
theorem sim_eq_zero (ta tb : String)
    (h : (wordSet ta).card = 0 ∨ (wordSet tb).card = 0) :
    calculate_text_similarity ta tb = 0 := if_pos h

/-- Similarity evaluates to the Jaccard quotient when both word sets are
non-empty. -/
theorem sim_eq_div (ta tb : String)
    (hor : ¬((wordSet ta).card = 0 ∨ (wordSet tb).card = 0))
    (hunion : 0 < (wordSet ta ∪ wordSet tb).card) :
    calculate_text_similarity ta tb =
      ((wordSet ta ∩ wordSet tb).card : ℚ) / ((wordSet ta ∪ wordSet tb).card : ℚ) :=
  (if_neg hor).trans (if_pos hunion)

/-- C10: _calculate_text_similarity is total and symmetric, its value lies
in the closed interval from 0 to 1, it returns 1 whenever the two texts
have the same non-empty lowercased token set, and it returns 0 whenever
either text has no whitespace tokens. -/
theorem calculate_text_similarity_props (t1 t2 : String) :
    calculate_text_similarity t1 t2 = calculate_text_similarity t2 t1 ∧
    0 ≤ calculate_text_similarity t1 t2 ∧
    calculate_text_similarity t1 t2 ≤ 1 ∧
    (wordSet t1 = wordSet t2 → wordSet t1 ≠ ∅ → calculate_text_similarity t1 t2 = 1) ∧
    ((wordSet t1 = ∅ ∨ wordSet t2 = ∅) → calculate_text_similarity t1 t2 = 0) := by
  by_cases h : (wordSet t1).card = 0 ∨ (wordSet t2).card = 0
  · have e1 := sim_eq_zero t1 t2 h
    have e2 := sim_eq_zero t2 t1 h.symm
    rw [e1, e2]
    refine ⟨rfl, le_refl 0, zero_le_one, ?_, fun _ => rfl⟩
    intro heq hne
    exfalso
    rcases h with h1 | h2
    · exact hne (Finset.card_eq_zero.mp h1)
    · exact hne (heq ▸ Finset.card_eq_zero.mp h2)
  · push_neg at h
    have hunion : 0 < (wordSet t1 ∪ wordSet t2).card := by
      have hsub : wordSet t1 ⊆ wordSet t1 ∪ wordSet t2 := Finset.subset_union_left
      have hle := Finset.card_le_card hsub
      have h1 := h.1
      omega
    have hunion' : 0 < (wordSet t2 ∪ wordSet t1).card := by
      rw [Finset.union_comm]; exact hunion
    have hor : ¬((wordSet t1).card = 0 ∨ (wordSet t2).card = 0) := by
      intro hc; rcases hc with a | b; exacts [h.1 a, h.2 b]
    have hor' : ¬((wordSet t2).card = 0 ∨ (wordSet t1).card = 0) := by
      intro hc; rcases hc with a | b; exacts [h.2 a, h.1 b]
    have e1 := sim_eq_div t1 t2 hor hunion
    have e2 := sim_eq_div t2 t1 hor' hunion'
    rw [e1, e2]
    refine ⟨?_, ?_, ?_, ?_, ?_⟩
    · rw [Finset.inter_comm, Finset.union_comm]
    · positivity
    · rw [div_le_one (by exact_mod_cast hunion)]
      exact_mod_cast Finset.card_le_card
        (Finset.inter_subset_union (s := wordSet t1) (t := wordSet t2))
    · intro heq _
      rw [heq, Finset.inter_self, Finset.union_self]
      rw [div_self]
      intro hc
      have hc0 : (wordSet t2).card = 0 := by exact_mod_cast hc
      exact h.2 hc0
    · intro hc
      exfalso
      rcases hc with a | b
      · exact h.1 (by rw [a]; exact Finset.card_empty)
      · exact h.2 (by rw [b]; exact Finset.card_empty)

/-- A concrete candidate with content a single word and high relevance. -/
def cexA : SearchResult :=
  { content := "a", metadata := { title := none, author := none, source := none },
    distance := 1/10, relevance_score := 9/10 }

/-- A concrete candidate whose content shares half its word set with cexA. -/
def cexAB : SearchResult :=
  { content := "a b", metadata := { title := none, author := none, source := none },
    distance := 1/10, relevance_score := 9/10 }

/-- A concrete candidate with relevance below the 0.5 threshold. -/
def cexLow : SearchResult :=
  { content := "x", metadata := { title := none, author := none, source := none },
    distance := 4/5, relevance_score := 1/5 }

/-- A second low-relevance candidate with different content. -/
def cexLow2 : SearchResult :=
  { content := "y z", metadata := { title := none, author := none, source := none },
    distance := 9/10, relevance_score := 1/10 }

/-- C1 counterexample: with diversity_threshold one half, candidate cexAB
has similarity to the selected cexA EQUAL to the threshold — not strictly
below it — yet the code admits it, while the claim-worded strict rule
rejects it. -/
theorem select_diverse_strict_counterexample :
    calculate_text_similarity cexAB.content cexA.content = 1/2 ∧
    select_diverse_results [cexA, cexAB] (1/2) = [cexA, cexAB] ∧
    select_diverse_claim_strict [cexA, cexAB] (1/2) = [cexA] := by
  refine ⟨?_, ?_, ?_⟩ <;> with_unfolding_all rfl

/-- One step of the loop equivalence: the Bool guard computed by the code
agrees with the claim-worded at-most-threshold guard. -/
theorem selectLoop_guard_iff (th : ℚ) (c : SearchResult) (selected : List SearchResult) :
    ((selected.all
        (fun s => !(decide (th < calculate_text_similarity c.content s.content)))) &&
      decide ((1 : ℚ)/2 < c.relevance_score)) = true ↔
    ((∀ s ∈ selected, calculate_text_similarity c.content s.content ≤ th) ∧
      (1 : ℚ)/2 < c.relevance_score) := by
  rw [Bool.and_eq_true, List.all_eq_true, decide_eq_true_eq]
  constructor
  · rintro ⟨h1, h2⟩
    refine ⟨fun s hs => ?_, h2⟩
    have hb := h1 s hs
    rw [Bool.not_eq_true', decide_eq_false_iff_not, not_lt] at hb
    exact hb
  · rintro ⟨h1, h2⟩
    refine ⟨fun s hs => ?_, h2⟩
    rw [Bool.not_eq_true', decide_eq_false_iff_not, not_lt]
    exact h1 s hs

/-- The code's greedy loop equals the claim-worded loop with the strict
comparison relaxed to at-most. -/
theorem selectLoop_eq_claim_le (th : ℚ) :
    ∀ (cs selected : List SearchResult),
      selectLoop th cs selected = selectLoopClaimLe th cs selected := by
  intro cs
  induction cs with
  | nil => intro selected; rfl
  | cons c rest ih =>
    intro selected
    rw [selectLoop, selectLoopClaimLe]
    by_cases hc : (∀ s ∈ selected, calculate_text_similarity c.content s.content ≤ th) ∧
        (1 : ℚ)/2 < c.relevance_score
    · rw [if_pos ((selectLoop_guard_iff th c selected).mpr hc), if_pos hc]
      by_cases h5 : 5 ≤ (selected ++ [c]).length
      · rw [if_pos h5, if_pos h5]
      · rw [if_neg h5, if_neg h5, ih]
    · rw [if_neg (fun hb => hc ((selectLoop_guard_iff th c selected).mp hb)), if_neg hc]
      by_cases h5 : 5 ≤ selected.length
      · rw [if_pos h5, if_pos h5]
      · rw [if_neg h5, if_neg h5, ih]

/-- C1 amended: _select_diverse_results implements the claim's greedy
selection with the admission test relaxed from similarity strictly below
the threshold to similarity at most the threshold (the code rejects only
on similarity strictly above the threshold); all other parts of the claim
— first candidate always kept, relevance must exceed 0.5, stop at five,
order preserved — are as stated. -/
theorem select_diverse_results_eq_claim_le (results : List SearchResult) (th : ℚ) :
    select_diverse_results results th = select_diverse_claim_le results th := by
  cases results with
  | nil => rfl
  | cons r rest => exact selectLoop_eq_claim_le th rest [r]

/-- C3 counterexample: a single candidate with relevance one fifth — below
the 0.5 minimum — is still returned, so the selection is not empty. -/
theorem select_diverse_low_counterexample :
    cexLow.relevance_score ≤ 1/2 ∧
    select_diverse_results [cexLow] (7/10) = [cexLow] ∧
    [cexLow] ≠ ([] : List SearchResult) := by
  refine ⟨by with_unfolding_all decide, by with_unfolding_all rfl, by simp⟩

/-- The greedy loop admits nothing when every remaining candidate has
relevance at most 0.5. -/
theorem selectLoop_no_admit (th : ℚ) :
    ∀ (cs selected : List SearchResult),
      (∀ x ∈ cs, x.relevance_score ≤ (1 : ℚ)/2) → selectLoop th cs selected = selected := by
  intro cs
  induction cs with
  | nil => intro selected _; rfl
  | cons c rest ih =>
    intro selected h
    rw [selectLoop]
    have hrel : ¬ ((1 : ℚ)/2 < c.relevance_score) := not_lt.mpr (h c (by simp))
    have hguard : ¬ (((selected.all
        (fun s => !(decide (th < calculate_text_similarity c.content s.content)))) &&
      decide ((1 : ℚ)/2 < c.relevance_score)) = true) := by
      intro hb
      exact hrel ((selectLoop_guard_iff th c selected).mp hb).2
    rw [if_neg hguard]
    by_cases h5 : 5 ≤ selected.length
    · rw [if_pos h5]
    · rw [if_neg h5]
      exact ih selected (fun x hx => h x (by simp [hx]))

/-- C3 amended: when no candidate's relevance exceeds 0.5, the selection
returns exactly the singleton of the top-ranked candidate (which the code
keeps unconditionally), not the empty sequence. -/
theorem select_diverse_all_low_singleton (r : SearchResult) (rest : List SearchResult)
    (th : ℚ) (h : ∀ x ∈ r :: rest, x.relevance_score ≤ (1 : ℚ)/2) :
    select_diverse_results (r :: rest) th = [r] :=
  selectLoop_no_admit th rest [r] (fun x hx => h x (by simp [hx]))

/-- C3 witness: the singleton behaviour at two concrete low-relevance
candidates. -/
theorem select_diverse_all_low_singleton_witness :
    select_diverse_results [cexLow, cexLow2] (7/10) = [cexLow] :=
  select_diverse_all_low_singleton cexLow [cexLow2] (7/10)
    (by intro x hx
        rcases List.mem_cons.mp hx with h1 | hx2
        · rw [h1]; with_unfolding_all decide
        · rcases List.mem_cons.mp hx2 with h2 | h3
          · rw [h2]; with_unfolding_all decide
          · cases h3)

/-- C2 counterexample: an embedding failure makes search return exactly
the same empty list that a legitimately empty index produces — no distinct
error value reaches the caller. -/
theorem search_failure_counterexample :
    search (Except.error "ModelUnavailable")
        (fun _ => Except.ok [("text", ⟨none, none, none⟩, 0)]) = ([] : List SearchResult) ∧
    search (Except.ok [0]) (fun _ => Except.ok []) = ([] : List SearchResult) :=
  ⟨rfl, rfl⟩

/-- C2 amended: search catches both failure modes and returns the empty
list — an embedding-backend failure and an index-query failure are each
reported as the empty list, indistinguishable from no results. -/
theorem search_error_swallowed (msg : String)
    (qf : List ℚ → Except String (List (String × RMeta × ℚ))) (v : List ℚ)
    (hq : qf v = Except.error msg) :
    search (Except.error msg) qf = [] ∧ search (Except.ok v) qf = [] := by
  constructor
  · rfl
  · rw [search, hq]

/-- C2 witness: both failure modes at concrete inputs. -/
theorem search_error_swallowed_witness :
    search (Except.error "down") (fun _ => Except.error "down") = ([] : List SearchResult) ∧
    search (Except.ok [1]) (fun _ => Except.error "down") = ([] : List SearchResult) :=
  search_error_swallowed "down" (fun _ => Except.error "down") [1] rfl

/-- A concrete result with empty content and empty-string metadata, whose
formatted block is only 15 characters long. -/
def cexEmpty : SearchResult :=
  { content := "", metadata := { title := some "", author := none, source := none },
    distance := 1/10, relevance_score := 9/10 }

/-- The budget loop returns a prefix of its input block list. -/
theorem takeBudget_front (n : Nat) :
    ∀ (bs : List String) (cur : Nat), ∃ t, takeBudget n bs cur ++ t = bs := by
  intro bs
  induction bs with
  | nil => intro cur; exact ⟨[], rfl⟩
  | cons b rest ih =>
    intro cur
    rw [takeBudget]
    by_cases hb : n < cur + b.length
    · rw [if_pos hb]; exact ⟨b :: rest, rfl⟩
    · rw [if_neg hb]
      obtain ⟨t, ht⟩ := ih (cur + b.length)
      exact ⟨t, by rw [List.cons_append, ht]⟩

/-- The blocks kept by the budget loop never exceed the remaining budget. -/
theorem takeBudget_sum (n : Nat) :
    ∀ (bs : List String) (cur : Nat), cur ≤ n →
      cur + ((takeBudget n bs cur).map String.length).sum ≤ n := by
  intro bs
  induction bs with
  | nil => intro cur h; simpa using h
  | cons b rest ih =>
    intro cur h
    rw [takeBudget]
    by_cases hb : n < cur + b.length
    · rw [if_pos hb]; simpa using h
    · rw [if_neg hb]
      have := ih (cur + b.length) (not_lt.mp hb)
      simp only [List.map_cons, List.sum_cons]
      omega

/-- When the budget loop stops before exhausting the blocks, the very next
block would push the running total beyond the budget. -/
theorem takeBudget_stop (n : Nat) :
    ∀ (bs : List String) (cur : Nat) (b : String) (t : List String),
      takeBudget n bs cur ++ b :: t = bs →
      n < cur + ((takeBudget n bs cur).map String.length).sum + b.length := by
  intro bs
  induction bs with
  | nil =>
    intro cur b t h
    exact absurd h (by simp)
  | cons hd rest ih =>
    intro cur b t hsplit
    by_cases hb : n < cur + hd.length
    · have e : takeBudget n (hd :: rest) cur = [] := by rw [takeBudget, if_pos hb]
      rw [e] at hsplit ⊢
      have hbhd : b = hd := by
        have := List.head_eq_of_cons_eq hsplit
        exact this
      rw [hbhd]
      simpa using hb
    · have e : takeBudget n (hd :: rest) cur = hd :: takeBudget n rest (cur + hd.length) := by
        rw [takeBudget, if_neg hb]
      rw [e] at hsplit ⊢
      rw [List.cons_append] at hsplit
      have hsplit' : takeBudget n rest (cur + hd.length) ++ b :: t = rest :=
        List.tail_eq_of_cons_eq hsplit
      have := ih (cur + hd.length) b t hsplit'
      simp only [List.map_cons, List.sum_cons]
      omega

/-- Length of the newline join: the blocks' total plus one separator per
additional block. -/
theorem joinNl_length :
    ∀ (ps : List String), ps ≠ [] →
      (joinNl ps).length = (ps.map String.length).sum + (ps.length - 1) := by
  intro ps
  induction ps with
  | nil => intro h; exact absurd rfl h
  | cons p rest ih =>
    intro _
    cases rest with
    | nil => simp [joinNl]
    | cons q rest' =>
      have e : joinNl (p :: q :: rest') = p ++ "\n" ++ joinNl (q :: rest') := rfl
      rw [e]
      rw [String.length_append, String.length_append, ih (by simp)]
      simp only [List.map_cons, List.sum_cons, List.length_cons]
      have hnl : ("\n" : String).length = 1 := rfl
      omega

/-- C4 amended: context assembly accumulates whole formatted blocks in
result order (the kept parts are a prefix of the block list), the kept
blocks' total length never exceeds the budget, assembly stops exactly at
the first block whose addition would exceed the budget, and the returned
string is the 45-character header plus the kept blocks plus one joining
newline per additional block — so it can exceed the budget by the header
and separators, not by a block. -/
theorem assemble_context_budget (selected : List SearchResult) (n : Nat)
    (parts : List String) (hp : parts = takeBudget n (selected.map formatBlock) 0) :
    contextHeader.length = 45 ∧
    (∃ t, parts ++ t = selected.map formatBlock) ∧
    (parts.map String.length).sum ≤ n ∧
    (parts = [] → assembleContext selected n = sentinel) ∧
    (parts ≠ [] →
      (assembleContext selected n).length =
        45 + (parts.map String.length).sum + (parts.length - 1)) ∧
    (∀ (b : String) (t : List String), parts ++ b :: t = selected.map formatBlock →
      n < (parts.map String.length).sum + b.length) := by
  subst hp
  refine ⟨rfl, takeBudget_front n (selected.map formatBlock) 0, ?_, ?_, ?_, ?_⟩
  · simpa using takeBudget_sum n (selected.map formatBlock) 0 (Nat.zero_le n)
  · intro he
    rw [assembleContext]
    simp only [he, if_pos]
  · intro hne
    rw [assembleContext]
    rw [if_neg hne, String.length_append]
    rw [joinNl_length _ hne]
    have h45 : contextHeader.length = 45 := rfl
    omega
  · intro b t hsplit
    simpa using takeBudget_stop n (selected.map formatBlock) 0 b t hsplit

/-- C4 witness: the amended budget accounting at a concrete input — one
23-character block within a budget of 100 assembles to a 68-character
string (45-character header plus the block). -/
theorem assemble_context_budget_witness : (assembleContext [cexA] 100).length = 68 := by
  have h := (assemble_context_budget [cexA] 100
      (takeBudget 100 ([cexA].map formatBlock) 0) rfl).2.2.2.2.1
      (by with_unfolding_all decide)
  rw [h]
  with_unfolding_all rfl

/-- C4 counterexample: five identical 15-character blocks all fit a budget
of 75, yet the returned context is 124 characters long — more than the
budget plus one full block's worth (75 + 15 = 90), because of the fixed
header and the joining newlines. -/
theorem assemble_context_budget_counterexample :
    (formatBlock cexEmpty).length = 15 ∧
    (get_context_for_query [cexEmpty, cexEmpty, cexEmpty, cexEmpty, cexEmpty] 75
      (7/10)).length = 124 ∧
    75 + 15 < 124 := by
  refine ⟨?_, ?_, ?_⟩
  · with_unfolding_all rfl
  · with_unfolding_all rfl
  · decide

/-- The budget loop keeps nothing when already the first block exceeds the
whole budget. -/
theorem takeBudget_nil_of_big (n : Nat) (bs : List String)
    (h : ∀ b ∈ bs, n < b.length) : takeBudget n bs 0 = [] := by
  cases bs with
  | nil => rfl
  | cons b rest =>
    rw [takeBudget, if_pos]
    simpa using h b (by simp)

/-- C8: whenever no formatted block fits within the budget — in particular
when the result list is empty — get_context_for_query returns the fixed
sentinel string, and it never returns the empty string. -/
theorem get_context_sentinel (results : List SearchResult) (n : Nat) (th : ℚ) :
    (results = [] → get_context_for_query results n th = sentinel) ∧
    ((∀ b ∈ (select_diverse_results results th).map formatBlock, n < b.length) →
      get_context_for_query results n th = sentinel) ∧
    get_context_for_query results n th ≠ "" := by
  refine ⟨?_, ?_, ?_⟩
  · intro he
    rw [get_context_for_query, if_pos he]
  · intro hbig
    by_cases he : results = []
    · rw [get_context_for_query, if_pos he]
    · rw [get_context_for_query, if_neg he, assembleContext]
      simp only [takeBudget_nil_of_big n _ hbig, if_pos]
  · by_cases he : results = []
    · rw [get_context_for_query, if_pos he]
      decide
    · rw [get_context_for_query, if_neg he, assembleContext]
      by_cases hp : takeBudget n ((select_diverse_results results th).map formatBlock) 0 = []
      · rw [if_pos hp]; decide
      · rw [if_neg hp]
        intro hc
        have hlen := congrArg String.length hc
        rw [String.length_append] at hlen
        have h45 : contextHeader.length = 45 := rfl
        have h0 : ("" : String).length = 0 := rfl
        omega

/-- C8 witness: the sentinel at concrete inputs — an empty result list, a
budget too small for any block, and the non-emptiness of the output. -/
theorem get_context_sentinel_witness :
    get_context_for_query [] 4000 (7/10) = sentinel ∧
    get_context_for_query [cexA] 3 (7/10) = sentinel ∧
    get_context_for_query [cexA] 3 (7/10) ≠ "" := by
  refine ⟨(get_context_sentinel [] 4000 (7/10)).1 rfl,
    (get_context_sentinel [cexA] 3 (7/10)).2.1 ?_,
    (get_context_sentinel [cexA] 3 (7/10)).2.2⟩
  intro b hb
  have hsel : select_diverse_results [cexA] (7/10) = [cexA] := by with_unfolding_all rfl
  rw [hsel] at hb
  simp only [List.map_cons, List.map_nil, List.mem_singleton] at hb
  rw [hb]
  with_unfolding_all decide

/-- A concrete document whose body is one hundred letters a: it yields
exactly one chunk of exactly 100 characters. -/
def docBig : Document :=
  { content := String.mk (List.replicate 100 'a'), source := "", title := "", url := "",
    author := "", publication_date := "", categories := [], content_type := "article" }

/-- A concrete four-word document whose windows are all far below the
100-character threshold. -/
def docSmall : Document :=
  { content := "a b c d", source := "", title := "", url := "", author := "",
    publication_date := "", categories := [], content_type := "article" }

/-- The chunk-building loop equals the filtered, consecutively numbered
window texts appended to the accumulator, with indices continuing from the
accumulator's length. -/
theorem chunkBuild_eq (d : Document) (words : List (List Char)) (cs : Nat) :
    ∀ (starts : List Nat) (acc : List Chunk),
      chunkBuild d words cs starts acc =
        acc ++ (List.enumFrom acc.length
          ((starts.map (windowText words cs)).filter
            (fun t => 100 ≤ (pyStrip t).length))).map (fun p => mkChunk d p.2 p.1 0) := by
  intro starts
  induction starts with
  | nil => intro acc; simp [chunkBuild]
  | cons i rest ih =>
    intro acc
    by_cases hlen : (pyStrip (windowText words cs i)).length < 100
    · have e : chunkBuild d words cs (i :: rest) acc = chunkBuild d words cs rest acc := by
        rw [chunkBuild, if_pos hlen]
      have hfilter : decide (100 ≤ (pyStrip (windowText words cs i)).length) = false :=
        decide_eq_false (by omega)
      rw [e, ih]
      simp only [List.map_cons, List.filter_cons, hfilter]
      rfl
    · have e : chunkBuild d words cs (i :: rest) acc =
          chunkBuild d words cs rest (acc ++ [mkChunk d (windowText words cs i) acc.length 0]) := by
        rw [chunkBuild, if_neg hlen]
      have hfilter : decide (100 ≤ (pyStrip (windowText words cs i)).length) = true :=
        decide_eq_true (by omega)
      rw [e, ih]
      simp only [List.map_cons, List.filter_cons, hfilter, if_true, List.enumFrom]
      rw [List.append_assoc]
      simp [List.length_append]

/-- Shared form of the _chunk_document characterisation: for non-empty
content the produced chunks are the kept window texts, numbered from 0,
each carrying the total count. -/
theorem chunk_document_texts (d : Document) (cs ov : Nat) (hcontent : d.content ≠ "") :
    chunk_document d cs ov =
      (List.enumFrom 0 (chunkTexts (splitWs d.content.toList) cs (cs - ov))).map
        (fun p => mkChunk d p.2 p.1
          (chunkTexts (splitWs d.content.toList) cs (cs - ov)).length) := by
  rw [chunk_document, if_neg hcontent]
  dsimp only
  rw [chunkBuild_eq d (splitWs d.content.toList) cs
    (chunkStarts (splitWs d.content.toList).length (cs - ov)) []]
  rw [List.nil_append, List.length_nil, List.length_map, List.enumFrom_length]
  rw [List.map_map]
  rfl

/-- C6: for a document with non-empty body and overlap below chunk_size,
_chunk_document produces exactly the windows at successive multiples of
the stride whose joined text reaches the 100-character threshold, numbered
consecutively from 0, each carrying the total count of produced chunks. -/
theorem chunk_document_eq_spec (d : Document) (cs ov : Nat)
    (hov : ov < cs) (hcontent : d.content ≠ "") :
    chunk_document d cs ov = chunksSpec d cs ov := by
  rw [chunk_document_texts d cs ov hcontent, chunksSpec]

/-- C6 witness: the characterisation at a concrete document with the
call-site parameters. -/
theorem chunk_document_eq_spec_witness :
    chunk_document docBig 1000 200 = chunksSpec docBig 1000 200 :=
  chunk_document_eq_spec docBig 1000 200 (by omega) (by with_unfolding_all decide)

/-- The words produced by the whitespace scan are non-empty and contain no
whitespace characters, provided the running accumulator is whitespace-free. -/
theorem splitWsAux_clean :
    ∀ (l acc : List Char), (∀ c ∈ acc, c.isWhitespace = false) →
      ∀ w ∈ splitWsAux acc l, w ≠ [] ∧ ∀ c ∈ w, c.isWhitespace = false := by
  intro l
  induction l with
  | nil =>
    intro acc hacc w hw
    by_cases ha : acc = []
    · rw [splitWsAux, if_pos ha] at hw
      cases hw
    · rw [splitWsAux, if_neg ha] at hw
      rw [List.mem_singleton] at hw
      exact hw ▸ ⟨ha, hacc⟩
  | cons c cs ih =>
    intro acc hacc w hw
    rw [splitWsAux] at hw
    by_cases hc : c.isWhitespace
    · rw [if_pos hc] at hw
      by_cases ha : acc = []
      · rw [if_pos ha] at hw
        exact ih [] (by intro x hx; cases hx) w hw
      · rw [if_neg ha] at hw
        rcases List.mem_cons.mp hw with he | hm
        · exact he ▸ ⟨ha, hacc⟩
        · exact ih [] (by intro x hx; cases hx) w hm
    · rw [if_neg hc] at hw
      refine ih (acc ++ [c]) ?_ w hw
      intro x hx
      rcases List.mem_append.mp hx with h1 | h2
      · exact hacc x h1
      · rw [List.mem_singleton] at h2
        rw [h2]
        exact Bool.eq_false_iff.mpr hc

/-- All words of a split are non-empty and whitespace-free. -/
theorem splitWs_clean (l : List Char) :
    ∀ w ∈ splitWs l, w ≠ [] ∧ ∀ c ∈ w, c.isWhitespace = false :=
  splitWsAux_clean l [] (by intro x hx; cases hx)

/-- Scanning a whitespace-free word followed by a space emits the
accumulator extended by that word, then continues on the remainder. -/
theorem splitWsAux_word_append :
    ∀ (w acc rest : List Char), (∀ c ∈ w, c.isWhitespace = false) → acc ++ w ≠ [] →
      splitWsAux acc (w ++ ' ' :: rest) = (acc ++ w) :: splitWsAux [] rest := by
  intro w
  induction w with
  | nil =>
    intro acc rest _ hne
    rw [List.append_nil] at hne
    rw [List.nil_append, splitWsAux, if_pos (by decide : (' ' : Char).isWhitespace = true),
      if_neg hne, List.append_nil]
  | cons x xs ih =>
    intro acc rest hclean hne
    have hx : x.isWhitespace = false := hclean x (by simp)
    rw [List.cons_append, splitWsAux, if_neg (by rw [hx]; intro h; cases h)]
    rw [ih (acc ++ [x]) rest (fun c hc => hclean c (by simp [hc])) (by simp)]
    rw [List.append_assoc]
    rfl

/-- Scanning a whitespace-free word at the end of input emits the
accumulator extended by that word. -/
theorem splitWsAux_word_final :
    ∀ (w acc : List Char), (∀ c ∈ w, c.isWhitespace = false) → acc ++ w ≠ [] →
      splitWsAux acc w = [acc ++ w] := by
  intro w
  induction w with
  | nil =>
    intro acc _ hne
    rw [List.append_nil] at hne
    rw [splitWsAux, if_neg hne, List.append_nil]
  | cons x xs ih =>
    intro acc hclean hne
    have hx : x.isWhitespace = false := hclean x (by simp)
    rw [splitWsAux, if_neg (by rw [hx]; intro h; cases h)]
    rw [ih (acc ++ [x]) (fun c hc => hclean c (by simp [hc])) (by simp)]
    rw [List.append_assoc]
    rfl

/-- Round trip: splitting the space join of non-empty whitespace-free
words returns exactly that word list. -/
theorem splitWs_joinWords :
    ∀ (ws : List (List Char)),
      (∀ w ∈ ws, w ≠ [] ∧ ∀ c ∈ w, c.isWhitespace = false) →
      splitWs (joinWords ws) = ws := by
  intro ws
  induction ws with
  | nil => intro _; rfl
  | cons w ws2 ih =>
    intro h
    cases ws2 with
    | nil =>
      have hw := h w (by simp)
      show splitWsAux [] (joinWords [w]) = [w]
      rw [joinWords]
      rw [splitWsAux_word_final w [] hw.2 (by simpa using hw.1)]
      rfl
    | cons w2 ws3 =>
      have hw := h w (by simp)
      have e : joinWords (w :: w2 :: ws3) = w ++ ' ' :: joinWords (w2 :: ws3) := rfl
      show splitWsAux [] (joinWords (w :: w2 :: ws3)) = w :: w2 :: ws3
      rw [e, splitWsAux_word_append w [] (joinWords (w2 :: ws3)) hw.2
        (by simpa using hw.1)]
      rw [List.nil_append]
      have := ih (fun x hx => h x (by simp [hx]))
      rw [show splitWsAux [] (joinWords (w2 :: ws3)) = splitWs (joinWords (w2 :: ws3)) from rfl,
        this]

/-- The number of window start positions: ceil(n / step). -/
def numStarts (n step : Nat) : Nat := (n + step - 1) / step

/-- The word windows of a document, as word lists, one per start position. -/
def windowsList (words : List (List Char)) (cs s m : Nat) : List (List (List Char)) :=
  (List.range m).map (fun j => (words.drop (j * s)).take cs)

/-- The claim's reconstruction operator on word windows: every window
contributes its first stride words, except the final window which
contributes all of its words. -/
def windowRecon (s : Nat) : List (List (List Char)) → List (List Char)
  | [] => []
  | [w] => w
  | w :: rest => w.take s ++ windowRecon s rest

/-- The claim's reconstruction operator on produced chunks: every chunk
contributes the first stride words of its text, except the final chunk
which contributes all of its words. -/
def nonOverlapConcat (s : Nat) : List Chunk → List (List Char)
  | [] => []
  | [c] => splitWs c.text.toList
  | c :: rest => (splitWs c.text.toList).take s ++ nonOverlapConcat s rest

/-- Start positions are below n: a start index j below ceil(n / s) has
j * s below n. -/
theorem start_mul_lt (n s j : Nat) (hs : 1 ≤ s) (hj : j < numStarts n s) : j * s < n := by
  have h1 : j + 1 ≤ (n + s - 1) / s := hj
  have h2 : (j + 1) * s ≤ n + s - 1 := (Nat.le_div_iff_mul_le hs).mp h1
  rw [Nat.succ_mul] at h2
  omega

/-- The windows cover the whole word list: n is at most ceil(n / s) * s. -/
theorem le_numStarts_mul (n s : Nat) (hs : 1 ≤ s) : n ≤ numStarts n s * s := by
  have hdm := Nat.div_add_mod (n + s - 1) s
  have hmod : (n + s - 1) % s < s := Nat.mod_lt _ hs
  have : numStarts n s * s = s * ((n + s - 1) / s) := by
    rw [Nat.mul_comm]; rfl
  rw [this]
  omega

/-- A positive word count means at least one window start. -/
theorem numStarts_pos (n s : Nat) (hs : 1 ≤ s) (hn : 1 ≤ n) : 1 ≤ numStarts n s := by
  have : 1 * s ≤ n + s - 1 := by omega
  exact (Nat.le_div_iff_mul_le hs).mpr this

/-- No words means no window starts. -/
theorem numStarts_zero (s : Nat) (hs : 1 ≤ s) : numStarts 0 s = 0 := by
  unfold numStarts
  rw [Nat.div_eq_of_lt]
  omega

/-- Peeling one window off the windows list shifts the remaining windows
into the dropped word list. -/
theorem windowsList_succ (words : List (List Char)) (cs s m : Nat) :
    windowsList words cs s (m + 1) =
      words.take cs :: windowsList (words.drop s) cs s m := by
  rw [windowsList, List.range_succ_eq_map, List.map_cons]
  congr 1
  · simp
  · rw [windowsList, List.map_map]
    apply List.map_congr_left
    intro j _
    show (words.drop ((j + 1) * s)).take cs = ((words.drop s).drop (j * s)).take cs
    rw [List.drop_drop]
    rw [Nat.succ_mul]
    rw [Nat.add_comm]

/-- A windows list of positive length is a cons. -/
theorem windowRecon_cons (s : Nat) (w : List (List Char)) (rest : List (List (List Char)))
    (h : rest ≠ []) : windowRecon s (w :: rest) = w.take s ++ windowRecon s rest := by
  cases rest with
  | nil => exact absurd rfl h
  | cons r rs => rfl

/-- Reconstruction over the first m windows yields the first
(m - 1) * s + cs words. -/
theorem windowRecon_take :
    ∀ (m : Nat) (words : List (List Char)) (cs s : Nat), 1 ≤ s → s ≤ cs → 1 ≤ m →
      windowRecon s (windowsList words cs s m) = words.take ((m - 1) * s + cs) := by
  intro m
  induction m with
  | zero => intro words cs s _ _ hm; cases hm
  | succ m ih =>
    intro words cs s hs hcs _
    rw [windowsList_succ]
    cases hm0 : m with
    | zero =>
      show windowRecon s [words.take cs] = words.take ((1 - 1) * s + cs)
      rw [windowRecon]
      simp
    | succ m' =>
      rw [← hm0]
      have hmpos : 1 ≤ m := by omega
      have hne : windowsList (words.drop s) cs s m ≠ [] := by
        rw [windowsList]
        intro hcon
        have := congrArg List.length hcon
        simp at this
        omega
      rw [windowRecon_cons s _ _ hne]
      rw [ih (words.drop s) cs s hs hcs hmpos]
      rw [List.take_take, Nat.min_eq_left hcs]
      rw [← List.take_add]
      congr 1
      have : m + 1 - 1 = m := by omega
      rw [this]
      cases m with
      | zero => omega
      | succ m2 =>
        have e1 : m2 + 1 - 1 = m2 := by omega
        rw [e1, Nat.succ_mul]
        omega

/-- Unfolding of the chunk reconstruction at a cons with non-empty tail. -/
theorem nonOverlapConcat_cons (s : Nat) (c : Chunk) (rest : List Chunk) (h : rest ≠ []) :
    nonOverlapConcat s (c :: rest) =
      (splitWs c.text.toList).take s ++ nonOverlapConcat s rest := by
  cases rest with
  | nil => exact absurd rfl h
  | cons r rs => rfl

/-- The chunk-level reconstruction over chunks built from clean word
windows equals the window-level reconstruction. -/
theorem nonOverlapConcat_map (s : Nat) (d : Document) (N : Nat) :
    ∀ (ws : List (List (List Char))) (k : Nat),
      (∀ w ∈ ws, ∀ x ∈ w, x ≠ [] ∧ ∀ c ∈ x, c.isWhitespace = false) →
      nonOverlapConcat s ((List.enumFrom k (ws.map joinWords)).map
        (fun p => mkChunk d p.2 p.1 N)) = windowRecon s ws := by
  intro ws
  induction ws with
  | nil => intro k _; rfl
  | cons w ws2 ih =>
    intro k h
    cases ws2 with
    | nil =>
      show nonOverlapConcat s [mkChunk d (joinWords w) k N] = w
      show splitWs (String.mk (joinWords w)).toList = w
      exact splitWs_joinWords w (h w (by simp))
    | cons w2 ws3 =>
      have e : (List.enumFrom k ((w :: w2 :: ws3).map joinWords)).map
          (fun p => mkChunk d p.2 p.1 N) =
          mkChunk d (joinWords w) k N ::
            (List.enumFrom (k + 1) ((w2 :: ws3).map joinWords)).map
              (fun p => mkChunk d p.2 p.1 N) := rfl
      rw [e]
      rw [nonOverlapConcat_cons s _ _ (by simp [List.enumFrom])]
      rw [windowRecon_cons s _ _ (by simp)]
      have hw : splitWs (String.mk (joinWords w)).toList = w :=
        splitWs_joinWords w (h w (by simp))
      show (splitWs (String.mk (joinWords w)).toList).take s ++ _ = _
      rw [hw, ih (k + 1) (fun x hx => h x (by simp [hx]))]

/-- Every word of every window is a word of the underlying word list. -/
theorem windowsList_clean (words : List (List Char)) (cs s m : Nat)
    (hwords : ∀ w ∈ words, w ≠ [] ∧ ∀ c ∈ w, c.isWhitespace = false) :
    ∀ w ∈ windowsList words cs s m, ∀ x ∈ w, x ≠ [] ∧ ∀ c ∈ x, c.isWhitespace = false := by
  intro w hw x hx
  rw [windowsList, List.mem_map] at hw
  obtain ⟨j, _, hj⟩ := hw
  refine hwords x ?_
  have h1 : x ∈ words.drop (j * s) := List.mem_of_mem_take (hj ▸ hx)
  exact List.mem_of_mem_drop h1

/-- The kept window texts are the filtered space joins of the windows. -/
theorem chunkTexts_eq_filter (words : List (List Char)) (cs s : Nat) :
    chunkTexts words cs s =
      ((windowsList words cs s (numStarts words.length s)).map joinWords).filter
        (fun t => 100 ≤ (pyStrip t).length) := by
  rw [chunkTexts, chunkStarts, windowsList, List.map_map, List.map_map]
  rfl

/-- Appending one window start extends the windows list on the right. -/
theorem windowsList_snoc (words : List (List Char)) (cs s m : Nat) :
    windowsList words cs s (m + 1) =
      windowsList words cs s m ++ [(words.drop (m * s)).take cs] := by
  rw [windowsList, List.range_succ, List.map_append, windowsList]
  rfl

/-- C5 amended: with stride chunk_size - overlap, concatenating each
retained chunk's non-overlapping portion (first stride words; all words
for the final chunk) reconstructs the document's whitespace-token sequence
exactly when every window reaches the 100-character threshold; when every
non-final window reaches it but the trailing window does not, it
reconstructs exactly the tokens covered by the non-trailing windows (the
first (k - 2) * stride + chunk_size tokens for k windows, none for a lone
dropped window) — so only trailing-window words are dropped.  The original
claim fails when an interior window is below the threshold. -/
theorem chunk_coverage (d : Document) (cs ov : Nat) (hov : ov < cs) :
    ((∀ i ∈ chunkStarts (splitWs d.content.toList).length (cs - ov),
        100 ≤ (pyStrip (windowText (splitWs d.content.toList) cs i)).length) →
      nonOverlapConcat (cs - ov) (chunk_document d cs ov) = splitWs d.content.toList) ∧
    ((∀ i ∈ chunkStarts (splitWs d.content.toList).length (cs - ov),
        i + (cs - ov) < (splitWs d.content.toList).length →
        100 ≤ (pyStrip (windowText (splitWs d.content.toList) cs i)).length) →
      2 ≤ numStarts (splitWs d.content.toList).length (cs - ov) →
      ¬ (100 ≤ (pyStrip (windowText (splitWs d.content.toList) cs
          ((numStarts (splitWs d.content.toList).length (cs - ov) - 1) * (cs - ov)))).length) →
      nonOverlapConcat (cs - ov) (chunk_document d cs ov) =
        (splitWs d.content.toList).take
          ((numStarts (splitWs d.content.toList).length (cs - ov) - 2) * (cs - ov) + cs)) ∧
    (numStarts (splitWs d.content.toList).length (cs - ov) = 1 →
      ¬ (100 ≤ (pyStrip (windowText (splitWs d.content.toList) cs 0)).length) →
      nonOverlapConcat (cs - ov) (chunk_document d cs ov) = []) := by
  have hs : 1 ≤ cs - ov := by omega
  have hcs : cs - ov ≤ cs := Nat.sub_le cs ov
  by_cases hcontent : d.content = ""
  · have hwords : splitWs d.content.toList = [] := by rw [hcontent]; rfl
    have hK : numStarts (splitWs d.content.toList).length (cs - ov) = 0 := by
      rw [hwords]
      exact numStarts_zero _ hs
    have hchunks : chunk_document d cs ov = [] := by rw [chunk_document, if_pos hcontent]
    refine ⟨?_, ?_, ?_⟩
    · intro _
      rw [hchunks, hwords]
      rfl
    · intro _ h2 _
      omega
    · intro h1 _
      omega
  · have hwclean := splitWs_clean d.content.toList
    rw [chunk_document_texts d cs ov hcontent, chunkTexts_eq_filter]
    refine ⟨?_, ?_, ?_⟩
    · intro hall
      have hfilter : ((windowsList (splitWs d.content.toList) cs (cs - ov)
          (numStarts (splitWs d.content.toList).length (cs - ov))).map joinWords).filter
            (fun t => 100 ≤ (pyStrip t).length) =
          (windowsList (splitWs d.content.toList) cs (cs - ov)
            (numStarts (splitWs d.content.toList).length (cs - ov))).map joinWords := by
        rw [List.filter_eq_self]
        intro t ht
        rw [List.mem_map] at ht
        obtain ⟨w, hwmem, hjt⟩ := ht
        rw [windowsList, List.mem_map] at hwmem
        obtain ⟨j, hjmem, hjw⟩ := hwmem
        rw [List.mem_range] at hjmem
        apply decide_eq_true
        have := hall (j * (cs - ov))
          (by rw [chunkStarts]
              exact List.mem_map.mpr ⟨j, List.mem_range.mpr hjmem, rfl⟩)
        rw [← hjt, ← hjw]
        exact this
      rw [hfilter]
      rw [nonOverlapConcat_map (cs - ov) d _ _ 0
        (windowsList_clean _ cs (cs - ov) _ hwclean)]
      by_cases hlen : (splitWs d.content.toList).length = 0
      · have hnil : splitWs d.content.toList = [] := List.length_eq_zero.mp hlen
        rw [hnil]
        have h0 : numStarts (List.length ([] : List (List Char))) (cs - ov) = 0 := by
          show numStarts 0 (cs - ov) = 0
          exact numStarts_zero _ hs
        rw [h0]
        rfl
      · have hK1 : 1 ≤ numStarts (splitWs d.content.toList).length (cs - ov) :=
          numStarts_pos _ _ hs (by omega)
        rw [windowRecon_take _ _ cs (cs - ov) hs hcs hK1]
        have hcover : (splitWs d.content.toList).length ≤
            (numStarts (splitWs d.content.toList).length (cs - ov) - 1) * (cs - ov) + cs := by
          have h1 := le_numStarts_mul (splitWs d.content.toList).length (cs - ov) hs
          have h2 : numStarts (splitWs d.content.toList).length (cs - ov) * (cs - ov) =
              (numStarts (splitWs d.content.toList).length (cs - ov) - 1) * (cs - ov) +
                (cs - ov) := by
            cases hcase : numStarts (splitWs d.content.toList).length (cs - ov) with
            | zero => omega
            | succ k => rw [Nat.succ_mul]; simp
          omega
        exact List.take_of_length_le hcover
    · intro hkeep hK2 hlast
      obtain ⟨K', hK'⟩ : ∃ K',
          numStarts (splitWs d.content.toList).length (cs - ov) = K' + 1 :=
        ⟨numStarts (splitWs d.content.toList).length (cs - ov) - 1, by omega⟩
      rw [hK'] at hlast ⊢
      have hK'pos : 1 ≤ K' := by omega
      rw [windowsList_snoc, List.map_append, List.filter_append]
      have hinit : ((windowsList (splitWs d.content.toList) cs (cs - ov) K').map
          joinWords).filter (fun t => 100 ≤ (pyStrip t).length) =
          (windowsList (splitWs d.content.toList) cs (cs - ov) K').map joinWords := by
        rw [List.filter_eq_self]
        intro t ht
        rw [List.mem_map] at ht
        obtain ⟨w, hwmem, hjt⟩ := ht
        rw [windowsList, List.mem_map] at hwmem
        obtain ⟨j, hjmem, hjw⟩ := hwmem
        rw [List.mem_range] at hjmem
        apply decide_eq_true
        have hjK : j < numStarts (splitWs d.content.toList).length (cs - ov) := by omega
        have hmem : j * (cs - ov) ∈
            chunkStarts (splitWs d.content.toList).length (cs - ov) := by
          rw [chunkStarts]
          exact List.mem_map.mpr ⟨j, List.mem_range.mpr hjK, rfl⟩
        have hnonfinal : j * (cs - ov) + (cs - ov) < (splitWs d.content.toList).length := by
          have hlt : K' * (cs - ov) < (splitWs d.content.toList).length :=
            start_mul_lt _ _ _ hs (by omega)
          have hle : (j + 1) * (cs - ov) ≤ K' * (cs - ov) :=
            Nat.mul_le_mul_right _ (by omega)
          rw [Nat.succ_mul] at hle
          omega
        have := hkeep (j * (cs - ov)) hmem hnonfinal
        rw [← hjt, ← hjw]
        exact this
      have hlastf : ((fun t => joinWords t) <$> [((splitWs d.content.toList).drop
          (K' * (cs - ov))).take cs]).filter (fun t => 100 ≤ (pyStrip t).length) = [] := by
        show (List.filter _ (List.map _ _)) = []
        rw [List.map_singleton]
        have hdec : decide (100 ≤ (pyStrip (joinWords (((splitWs d.content.toList).drop
            (K' * (cs - ov))).take cs))).length) = false := by
          apply decide_eq_false
          intro hcon
          apply hlast
          have he : (K' + 1 - 1) * (cs - ov) = K' * (cs - ov) := rfl
          rw [he]
          exact hcon
        rw [List.filter_cons, hdec]
        rfl
      rw [hinit]
      rw [show ((List.map joinWords [((splitWs d.content.toList).drop
          (K' * (cs - ov))).take cs]).filter (fun t => 100 ≤ (pyStrip t).length)) = [] from
        hlastf]
      rw [List.append_nil]
      rw [nonOverlapConcat_map (cs - ov) d _ _ 0
        (windowsList_clean _ cs (cs - ov) _ hwclean)]
      rw [windowRecon_take _ _ cs (cs - ov) hs hcs hK'pos]
      have he2 : K' + 1 - 2 = K' - 1 := by omega
      rw [he2]
    · intro hK1 hlast
      rw [hK1]
      have hwin : windowsList (splitWs d.content.toList) cs (cs - ov) 1 =
          [((splitWs d.content.toList).drop 0).take cs] := by
        rw [windowsList,
          show List.range 1 = [0] from rfl, List.map_singleton, Nat.zero_mul]
      rw [hwin]
      have hdec : decide (100 ≤ (pyStrip (joinWords (((splitWs d.content.toList).drop
          0).take cs))).length) = false := by
        apply decide_eq_false
        intro hcon
        exact hlast hcon
      rw [List.map_singleton, List.filter_cons, hdec]
      rfl

/-- C5 witness: full coverage at a concrete one-window document — the
reconstruction returns exactly the document's token sequence. -/
theorem chunk_coverage_witness :
    nonOverlapConcat (1000 - 200) (chunk_document docBig 1000 200) =
      splitWs docBig.content.toList :=
  (chunk_coverage docBig 1000 200 (by omega)).1
    (by intro i hi
        have he : chunkStarts (splitWs docBig.content.toList).length (1000 - 200) = [0] := by
          with_unfolding_all rfl
        rw [he, List.mem_singleton] at hi
        rw [hi]
        with_unfolding_all decide)

/-- C5 counterexample: a four-word document with chunk_size 2 and overlap
0 loses every word — both windows are below the 100-character threshold —
so the reconstruction is empty although only the trailing window is
permitted to be dropped (the claim predicts the first window's words [a],
[b] to survive). -/
theorem chunk_coverage_counterexample :
    chunk_document docSmall 2 0 = [] ∧
    nonOverlapConcat 2 (chunk_document docSmall 2 0) = [] ∧
    splitWs docSmall.content.toList = [['a'], ['b'], ['c'], ['d']] ∧
    numStarts (splitWs docSmall.content.toList).length 2 = 2 ∧
    ([] : List (List Char)) ≠ splitWs docSmall.content.toList ∧
    ([] : List (List Char)) ≠ (splitWs docSmall.content.toList).take 2 := by
  refine ⟨?_, ?_, ?_, ?_, ?_, ?_⟩
  · with_unfolding_all rfl
  · with_unfolding_all rfl
  · with_unfolding_all rfl
  · with_unfolding_all rfl
  · with_unfolding_all decide
  · with_unfolding_all decide

/-- C9: a document with empty (or missing, which reads as empty) body
yields no chunks and no error, and contributes no chunks to the
add_documents ingestion. -/
theorem chunk_document_empty (d : Document) (cs ov : Nat) (h : d.content = "") :
    chunk_document d cs ov = [] ∧ processedChunks [d] = [] := by
  have h1 : chunk_document d cs ov = [] := by rw [chunk_document, if_pos h]
  have h2 : chunk_document d 1000 200 = [] := by rw [chunk_document, if_pos h]
  exact ⟨h1, by simp [processedChunks, h2]⟩

/-- A concrete document with empty body. -/
def docEmpty : Document :=
  { content := "", source := "", title := "", url := "", author := "",
    publication_date := "", categories := [], content_type := "article" }

/-- C9 witness: the empty-body behaviour at a concrete document. -/
theorem chunk_document_empty_witness :
    chunk_document docEmpty 1000 200 = [] ∧ processedChunks [docEmpty] = [] :=
  chunk_document_empty docEmpty 1000 200 rfl

/-- C7: two batches written within the same wall-clock second receive
identical ids — the id list for two one-chunk documents ingested with
batch_size 1 at the same second is [doc_1000_0, doc_1000_0], which has a
duplicate, so the second batch overwrites the first chunk. -/
theorem add_documents_id_collision :
    addDocumentsIds [docBig, docBig] 1 (fun _ => 1000) =
      ["doc_1000_0", "doc_1000_0"] ∧
    ¬ (["doc_1000_0", "doc_1000_0"] : List String).Nodup := by
  constructor
  · with_unfolding_all rfl
  · with_unfolding_all decide

/-- C10 witness: the properties evaluated at concrete texts — equal
non-empty lowercased token sets give similarity 1, and an empty text gives
similarity 0. -/
theorem calculate_text_similarity_props_witness :
    calculate_text_similarity "gut HEALTH" "Gut health" = 1 ∧
    calculate_text_similarity "" "fiber" = 0 := by
  constructor
  · exact (calculate_text_similarity_props "gut HEALTH" "Gut health").2.2.2.1
      (by with_unfolding_all rfl)
      (by intro hc
          have := congrArg Finset.card hc
          rw [Finset.card_empty] at this
          exact absurd this (by with_unfolding_all decide))
  · exact (calculate_text_similarity_props "" "fiber").2.2.2.2
      (Or.inl (by with_unfolding_all rfl))

end BetterGut
